import Mathlib

/-!
Verification of the hybrid (discrete + Gaussian) core of this repository.

The development shallowly embeds the code of `HybridFactor.cpp` (key
collection, category classification, equality, printing) together with the
mixture / decision-tree / pruning operations described by the design
document.  Keys are natural numbers, a `DiscreteKey` is a pair
(identifier, cardinality), and exact arithmetic (rationals, reals) stands
in for the floating point of the original.
-/

namespace GtsamHybrid

/-- Category tag of a hybrid node, from `HybridCategory` in the source. -/
inductive HybridCategory where
  | Continuous
  | Discrete
  | Hybrid
deriving DecidableEq, Repr

/-- A discrete key is an (identifier, cardinality) pair, as `DiscreteKey`. -/
abbrev DiscreteKey := ℕ × ℕ

/-- Embedding of `CollectKeys(continuousKeys, discreteKeys)`: copy the
continuous keys, then append the identifier of each discrete key. -/
def CollectKeys (continuousKeys : List ℕ) (discreteKeys : List DiscreteKey) : List ℕ :=
  continuousKeys ++ discreteKeys.map Prod.fst

/-- Embedding of the `HybridFactor` data: the collected key vector, the
category tag and both key sets. -/
structure HybridFactor where
  keys : List ℕ
  category : HybridCategory
  continuousKeys : List ℕ
  discreteKeys : List DiscreteKey
deriving DecidableEq, Repr

/-- Category computed by the two-argument `HybridFactor` constructor: the
if/else-if/else chain on emptiness of the two key sets. -/
def hybridCategoryOf (continuousKeys : List ℕ) (discreteKeys : List DiscreteKey) :
    HybridCategory :=
  if continuousKeys.length = 0 ∧ discreteKeys.length ≠ 0 then HybridCategory.Discrete
  else if continuousKeys.length ≠ 0 ∧ discreteKeys.length = 0 then HybridCategory.Continuous
  else HybridCategory.Hybrid

/-- Embedding of `HybridFactor::HybridFactor(const KeyVector&)`: category is
unconditionally `Continuous`, the keys are stored as the continuous keys. -/
def HybridFactor.ofContinuous (keys : List ℕ) : HybridFactor :=
  { keys := keys
    category := HybridCategory.Continuous
    continuousKeys := keys
    discreteKeys := [] }

/-- Embedding of `HybridFactor::HybridFactor(const KeyVector&, const
DiscreteKeys&)`: base keys come from `CollectKeys`, the category from the
emptiness tests of the source. -/
def HybridFactor.ofContinuousAndDiscrete (continuousKeys : List ℕ)
    (discreteKeys : List DiscreteKey) : HybridFactor :=
  { keys := CollectKeys continuousKeys discreteKeys
    category := hybridCategoryOf continuousKeys discreteKeys
    continuousKeys := continuousKeys
    discreteKeys := discreteKeys }

/-- Embedding of `HybridFactor::HybridFactor(const DiscreteKeys&)`: category
is unconditionally `Discrete`, with empty continuous keys. -/
def HybridFactor.ofDiscrete (discreteKeys : List DiscreteKey) : HybridFactor :=
  { keys := CollectKeys [] discreteKeys
    category := HybridCategory.Discrete
    continuousKeys := []
    discreteKeys := discreteKeys }

/-- Category label as printed by `HybridFactor::print` (including the space
that the source prints right after the label). -/
def categoryLabel : HybridCategory → String
  | HybridCategory.Continuous => "Continuous "
  | HybridCategory.Discrete => "Discrete "
  | HybridCategory.Hybrid => "Hybrid "

/-- The loop of `HybridFactor::print` over the continuous keys: every key but
the last is followed by a space; the last is followed by the "; " separator
exactly when the discrete key set is nonempty (flag `discNonempty`). -/
def contKeysLoop (fmt : ℕ → String) (discNonempty : Bool) : List ℕ → String
  | [] => ""
  | [c] => fmt c ++ (if discNonempty then "; " else "")
  | c :: rest => fmt c ++ " " ++ contKeysLoop fmt discNonempty rest

/-- The loop of `HybridFactor::print` over the discrete keys: identifiers
separated by single spaces. -/
def discKeysLoop (fmt : ℕ → String) : List DiscreteKey → String
  | [] => ""
  | [d] => fmt d.1
  | d :: rest => fmt d.1 ++ " " ++ discKeysLoop fmt rest

/-- Embedding of `HybridFactor::print`: the optional header line, the
category label, and the bracketed key lists. -/
def HybridFactor.printString (f : HybridFactor) (s : String) (fmt : ℕ → String) : String :=
  (if s = "" then "" else s ++ "\n") ++
  categoryLabel f.category ++ "[" ++
  contKeysLoop fmt (decide (0 < f.discreteKeys.length)) f.continuousKeys ++
  discKeysLoop fmt f.discreteKeys ++ "]"

/-- Space-separated join of rendered keys, used to state the documented
print format. -/
def spaceJoin : List String → String
  | [] => ""
  | [x] => x
  | x :: rest => x ++ " " ++ spaceJoin rest

/-- The print format as the design document states it: category label, then
an opening bracket, the continuous keys space separated, a semicolon
separator when discrete keys follow the continuous keys, the discrete keys
space separated, and a closing bracket, each key rendered through the
caller-supplied formatter. -/
def specPrintFormat (f : HybridFactor) (s : String) (fmt : ℕ → String) : String :=
  (if s = "" then "" else s ++ "\n") ++
  categoryLabel f.category ++ "[" ++
  spaceJoin (f.continuousKeys.map fmt) ++
  (if f.continuousKeys ≠ [] ∧ f.discreteKeys ≠ [] then "; " else "") ++
  spaceJoin (f.discreteKeys.map (fun d => fmt d.1)) ++ "]"

theorem discKeysLoop_eq_spaceJoin (fmt : ℕ → String) :
    ∀ dk : List DiscreteKey, discKeysLoop fmt dk = spaceJoin (dk.map (fun d => fmt d.1)) := by
  intro dk
  induction dk with
  | nil => rfl
  | cons d rest ih =>
    cases rest with
    | nil => rfl
    | cons e tail =>
      simp only [discKeysLoop, List.map, spaceJoin] at ih ⊢
      rw [ih]

theorem contKeysLoop_eq_spaceJoin (fmt : ℕ → String) (dn : Bool) :
    ∀ ck : List ℕ, contKeysLoop fmt dn ck =
      spaceJoin (ck.map fmt) ++ (if ck ≠ [] ∧ dn = true then "; " else "") := by
  intro ck
  induction ck with
  | nil => simp [contKeysLoop, spaceJoin]
  | cons c rest ih =>
    cases rest with
    | nil =>
      cases dn <;> simp [contKeysLoop, spaceJoin]
    | cons e tail =>
      simp only [contKeysLoop, List.map, spaceJoin] at ih ⊢
      rw [ih]
      simp [String.append_assoc]

/-- C1 counterexample: constructing a `HybridFactor` with empty continuous
and empty discrete key sets does not fail; the two-key-set constructor
performs no emptiness check at all and produces a node, tagged `Hybrid` by
the final else branch, with both key sets empty. -/
theorem hybridFactor_empty_empty_node_produced :
    (HybridFactor.ofContinuousAndDiscrete [] []).category = HybridCategory.Hybrid ∧
    (HybridFactor.ofContinuousAndDiscrete [] []).continuousKeys = [] ∧
    (HybridFactor.ofContinuousAndDiscrete [] []).discreteKeys = [] := by
  refine ⟨rfl, rfl, rfl⟩

/-- C1 (amended): constructing a `HybridFactor` whose continuous and discrete
key sets are both empty succeeds and yields the node with empty key vector
that is classified `Hybrid`; no `IllFormedNode` error exists in the code. -/
theorem hybridFactor_empty_empty_eq (ck : List ℕ) (dk : List DiscreteKey)
    (hc : ck = []) (hd : dk = []) :
    HybridFactor.ofContinuousAndDiscrete ck dk =
      { keys := []
        category := HybridCategory.Hybrid
        continuousKeys := []
        discreteKeys := [] } := by
  subst hc; subst hd; rfl

/-- C1 witness for the amended statement at the concrete empty inputs. -/
theorem hybridFactor_empty_empty_eq_w :
    HybridFactor.ofContinuousAndDiscrete [] [] =
      { keys := []
        category := HybridCategory.Hybrid
        continuousKeys := []
        discreteKeys := [] } :=
  hybridFactor_empty_empty_eq [] [] rfl rfl

/-- C2: for every `HybridFactor` built by the two-argument constructor, the
category is determined by non-emptiness of the two key sets exactly as the
if/else-if chain of the source states: empty continuous with nonempty
discrete gives `Discrete`, nonempty continuous with empty discrete gives
`Continuous`, and both nonempty gives `Hybrid`. -/
theorem hybridFactor_category_classification (ck : List ℕ) (dk : List DiscreteKey) :
    (ck = [] → dk ≠ [] →
      (HybridFactor.ofContinuousAndDiscrete ck dk).category = HybridCategory.Discrete) ∧
    (ck ≠ [] → dk = [] →
      (HybridFactor.ofContinuousAndDiscrete ck dk).category = HybridCategory.Continuous) ∧
    (ck ≠ [] → dk ≠ [] →
      (HybridFactor.ofContinuousAndDiscrete ck dk).category = HybridCategory.Hybrid) := by
  refine ⟨?_, ?_, ?_⟩ <;> intro h1 h2 <;>
    simp [HybridFactor.ofContinuousAndDiscrete, hybridCategoryOf,
      List.length_eq_zero, h1, h2]

/-- C2 witness: the three classification cases at concrete key sets. -/
theorem hybridFactor_category_classification_w :
    (HybridFactor.ofContinuousAndDiscrete [] [(5, 2)]).category = HybridCategory.Discrete ∧
    (HybridFactor.ofContinuousAndDiscrete [7] []).category = HybridCategory.Continuous ∧
    (HybridFactor.ofContinuousAndDiscrete [7] [(5, 2)]).category = HybridCategory.Hybrid :=
  ⟨(hybridFactor_category_classification [] [(5, 2)]).1 rfl (by decide),
   (hybridFactor_category_classification [7] []).2.1 (by decide) rfl,
   (hybridFactor_category_classification [7] [(5, 2)]).2.2 (by decide) (by decide)⟩

/-- C8: `HybridFactor::print` emits exactly the documented format: the
category label, an opening bracket, the continuous keys space separated, a
semicolon separator when discrete keys follow the printed continuous keys,
the discrete keys space separated, and a closing bracket, every key rendered
through the caller-supplied formatter. -/
theorem hybridFactor_print_format (f : HybridFactor) (s : String) (fmt : ℕ → String) :
    f.printString s fmt = specPrintFormat f s fmt := by
  unfold HybridFactor.printString specPrintFormat
  rw [contKeysLoop_eq_spaceJoin, discKeysLoop_eq_spaceJoin]
  have hiff : (f.continuousKeys ≠ [] ∧ decide (0 < f.discreteKeys.length) = true) ↔
      (f.continuousKeys ≠ [] ∧ f.discreteKeys ≠ []) := by
    simp [List.length_pos]
  simp only [hiff, String.append_assoc]

/-- C9: the full key vector of a `HybridFactor` built from continuous keys
and discrete keys is `CollectKeys` of the two, which is the plain
concatenation of the continuous keys with the identifiers of the discrete
keys, in the given orders, preserving duplicates. -/
theorem hybridFactor_keys_concatenation (ck : List ℕ) (dk : List DiscreteKey) :
    (HybridFactor.ofContinuousAndDiscrete ck dk).keys = CollectKeys ck dk ∧
    CollectKeys ck dk = ck ++ dk.map Prod.fst := ⟨rfl, rfl⟩

/-- C10: the `HybridFactor` constructor taking only a plain key vector always
assigns category `Continuous` (it is a total function that performs no
classification and no check, so this holds for the empty vector too), and
stores the keys as the continuous keys with no discrete keys. -/
theorem hybridFactor_ofContinuous_category (keys : List ℕ) :
    (HybridFactor.ofContinuous keys).category = HybridCategory.Continuous ∧
    (HybridFactor.ofContinuous keys).continuousKeys = keys ∧
    (HybridFactor.ofContinuous keys).discreteKeys = [] := ⟨rfl, rfl, rfl⟩

/-! Pruning of a hybrid Bayes net.  The body of `HybridBayesNet::prune` is
not under src/ (the header only declares it), so the operation is modelled
from the design document: the pointwise product of the discrete
conditionals is a decision tree of probabilities over the union of the
discrete keys; pruning keeps the `maxNrLeaves` assignments of highest
probability with ties broken by the lexicographic (index) order of the
assignments, renormalizes the kept probabilities to sum to 1, and nulls
the mixture leaves of every discarded assignment.  The product tree is
flattened into the list of its leaf probabilities in lexicographic
assignment order, so an index is an assignment. -/

/-- Probability of assignment `i` in the flattened product tree `p`. -/
def getP (p : List ℚ) (i : ℕ) : ℚ := (p[i]?).getD 0

/-- Assignment `j` is preferred to assignment `i` by the pruning order:
strictly higher probability, or equal probability and earlier
(lexicographically smaller) assignment. -/
def beats (p : List ℚ) (j i : ℕ) : Prop :=
  getP p i < getP p j ∨ (getP p j = getP p i ∧ j < i)

instance (p : List ℚ) (j i : ℕ) : Decidable (beats p j i) := by
  unfold beats; infer_instance

/-- Number of assignments preferred to assignment `i`. -/
def rank (p : List ℚ) (i : ℕ) : ℕ :=
  ((List.range p.length).filter (fun j => decide (beats p j i))).length

/-- Modelled from the spec: assignment `i` survives `prune` with budget `k`
iff fewer than `k` assignments are preferred to it (the `k` best survive). -/
def isKept (k : ℕ) (p : List ℚ) (i : ℕ) : Bool := decide (rank p i < k)

/-- Modelled from the spec: the discrete probabilities after pruning, with a
null leaf at every discarded assignment. -/
def pruneProbs (k : ℕ) (p : List ℚ) : List (Option ℚ) :=
  (List.range p.length).map (fun i => if isKept k p i then some (getP p i) else none)

/-- The non-null leaf values of a pruned tree. -/
def survivors (l : List (Option ℚ)) : List ℚ := l.reduceOption

/-- Modelled from the spec: renormalize the surviving probabilities so that
they sum to 1, leaving null leaves null. -/
def renormalize (l : List (Option ℚ)) : List (Option ℚ) :=
  l.map (Option.map (fun v => v / (survivors l).sum))

/-- A hybrid Bayes net as pruning sees it: the flattened product of its
discrete conditionals, and one mixture leaf per discrete assignment (leaves
are opaque identifiers; only the null pattern matters to pruning). -/
structure HybridBayesNet where
  discreteProbs : List ℚ
  mixtureLeaves : List ℕ
deriving DecidableEq, Repr

/-- A pruned net: discarded assignments hold null leaves in the discrete
tree and in every mixture. -/
structure PrunedHybridBayesNet where
  discreteProbs : List (Option ℚ)
  mixtureLeaves : List (Option ℕ)
deriving DecidableEq, Repr

/-- Modelled from the spec: `HybridBayesNet::prune(maxNrLeaves)` keeps the
best `k` assignments of the discrete product tree, renormalizes the kept
discrete probabilities, and nulls out the mixture leaves of every discarded
assignment. -/
def HybridBayesNet.prune (net : HybridBayesNet) (k : ℕ) : PrunedHybridBayesNet :=
  { discreteProbs := renormalize (pruneProbs k net.discreteProbs)
    mixtureLeaves := (List.range net.discreteProbs.length).map
      (fun i => if isKept k net.discreteProbs i
                then some (net.mixtureLeaves.getD i 0) else none) }

/-- Number of non-null leaves. -/
def nonNullCount {α : Type} (l : List (Option α)) : ℕ := (l.filter Option.isSome).length

theorem beats_irrefl (p : List ℚ) (i : ℕ) : ¬ beats p i i := by
  unfold beats; simp

theorem beats_trans {p : List ℚ} {a b c : ℕ} (h1 : beats p a b) (h2 : beats p b c) :
    beats p a c := by
  rcases h1 with h1 | ⟨e1, l1⟩ <;> rcases h2 with h2 | ⟨e2, l2⟩
  · exact Or.inl (lt_trans h2 h1)
  · exact Or.inl (e2 ▸ h1)
  · exact Or.inl (e1 ▸ h2)
  · exact Or.inr ⟨e1.trans e2, lt_trans l1 l2⟩

theorem beats_total (p : List ℚ) {i j : ℕ} (h : i ≠ j) : beats p i j ∨ beats p j i := by
  rcases lt_trichotomy (getP p i) (getP p j) with hl | he | hg
  · exact Or.inr (Or.inl hl)
  · rcases lt_or_gt_of_ne h with hij | hij
    · exact Or.inl (Or.inr ⟨he, hij⟩)
    · exact Or.inr (Or.inr ⟨he.symm, hij⟩)
  · exact Or.inl (Or.inl hg)

theorem rank_lt_rank_of_beats {p : List ℚ} {x y : ℕ} (hx : x < p.length)
    (hxy : beats p x y) : rank p x < rank p y := by
  have hxmem : x ∉ (List.range p.length).filter (fun j => decide (beats p j x)) := by
    intro hmem
    have := (List.mem_filter.mp hmem).2
    exact beats_irrefl p x (of_decide_eq_true this)
  have hnd : (x :: (List.range p.length).filter (fun j => decide (beats p j x))).Nodup :=
    List.nodup_cons.mpr ⟨hxmem, (List.nodup_range _).filter _⟩
  have hsub : (x :: (List.range p.length).filter (fun j => decide (beats p j x))) ⊆
      (List.range p.length).filter (fun j => decide (beats p j y)) := by
    intro a ha
    rcases List.mem_cons.mp ha with rfl | ha
    · exact List.mem_filter.mpr ⟨List.mem_range.mpr hx, decide_eq_true hxy⟩
    · rcases List.mem_filter.mp ha with ⟨har, hab⟩
      exact List.mem_filter.mpr
        ⟨har, decide_eq_true (beats_trans (of_decide_eq_true hab) hxy)⟩
  have hle := (List.subperm_of_subset hnd hsub).length_le
  simpa [rank, Nat.succ_le_iff] using hle

theorem rank_injOn {p : List ℚ} {x y : ℕ} (hx : x < p.length) (hy : y < p.length)
    (h : rank p x = rank p y) : x = y := by
  by_contra hne
  rcases beats_total p hne with hb | hb
  · exact absurd h (Nat.ne_of_lt (rank_lt_rank_of_beats hx hb))
  · exact absurd h.symm (Nat.ne_of_lt (rank_lt_rank_of_beats hy hb))

theorem length_filter_isKept_le (k : ℕ) (p : List ℚ) :
    ((List.range p.length).filter (fun i => isKept k p i)).length ≤ k := by
  have hnd : ((List.range p.length).filter (fun i => isKept k p i)).Nodup :=
    (List.nodup_range _).filter _
  have hinj : ∀ x ∈ (List.range p.length).filter (fun i => isKept k p i),
      ∀ y ∈ (List.range p.length).filter (fun i => isKept k p i),
      rank p x = rank p y → x = y := by
    intro x hxm y hym hr
    exact rank_injOn (List.mem_range.mp (List.mem_filter.mp hxm).1)
      (List.mem_range.mp (List.mem_filter.mp hym).1) hr
  have hndm := List.Nodup.map_on hinj hnd
  have hsub : ((List.range p.length).filter (fun i => isKept k p i)).map (rank p) ⊆
      List.range k := by
    intro r hr
    rcases List.mem_map.mp hr with ⟨i, hi, rfl⟩
    have := (List.mem_filter.mp hi).2
    exact List.mem_range.mpr (of_decide_eq_true this)
  have hle := (List.subperm_of_subset hndm hsub).length_le
  simpa using hle

theorem nonNullCount_map_ite {α : Type} (c : ℕ → Bool) (g : ℕ → α) (l : List ℕ) :
    nonNullCount (l.map (fun i => if c i then some (g i) else none)) =
      (l.filter c).length := by
  induction l with
  | nil => rfl
  | cons i t ih =>
    cases h : c i <;> simp [nonNullCount, List.filter_cons, h] at ih ⊢ <;> omega

theorem nonNullCount_map_optionMap {α β : Type} (f : α → β) (l : List (Option α)) :
    nonNullCount (l.map (Option.map f)) = nonNullCount l := by
  unfold nonNullCount
  induction l with
  | nil => rfl
  | cons a t ih =>
    cases a <;> simp [List.filter_cons] at ih ⊢ <;> omega

theorem nonNullCount_renormalize (l : List (Option ℚ)) :
    nonNullCount (renormalize l) = nonNullCount l :=
  nonNullCount_map_optionMap _ l

theorem exists_max_kept (k : ℕ) (hk : 1 ≤ k) (p : List ℚ) (hne : p ≠ []) :
    ∃ i, i < p.length ∧ isKept k p i = true ∧
      ∀ j, j < p.length → getP p j ≤ getP p i := by
  have hn : 0 < p.length := List.length_pos.mpr hne
  obtain ⟨b, hb, hmax⟩ := Finset.exists_max_image (Finset.range p.length) (getP p)
    ⟨0, Finset.mem_range.mpr hn⟩
  have hQ : ∃ i, i < p.length ∧ ∀ j, j < p.length → getP p j ≤ getP p i :=
    ⟨b, Finset.mem_range.mp hb, fun j hj => hmax j (Finset.mem_range.mpr hj)⟩
  have hspec := Nat.find_spec hQ
  refine ⟨Nat.find hQ, hspec.1, ?_, hspec.2⟩
  have hrank : rank p (Nat.find hQ) = 0 := by
    unfold rank
    rw [List.length_eq_zero, List.filter_eq_nil_iff]
    intro j hj hbeats
    rcases of_decide_eq_true hbeats with hgt | ⟨heq, hlt⟩
    · exact absurd (hspec.2 j (List.mem_range.mp hj)) (not_le.mpr hgt)
    · exact Nat.find_min hQ hlt
        ⟨List.mem_range.mp hj, fun j2 hj2 => heq ▸ hspec.2 j2 hj2⟩
  simp only [isKept, hrank]
  exact decide_eq_true hk

theorem sum_map_div (l : List ℚ) (c : ℚ) :
    (l.map (fun x => x / c)).sum = l.sum / c := by
  induction l with
  | nil => simp
  | cons a t ih => simp [ih, add_div]

theorem survivors_renormalize (l : List (Option ℚ)) :
    survivors (renormalize l) = (survivors l).map (fun v => v / (survivors l).sum) := by
  unfold survivors renormalize
  exact List.reduceOption_map

theorem getP_mem {p : List ℚ} {i : ℕ} (hi : i < p.length) : getP p i ∈ p := by
  unfold getP
  rw [List.getElem?_eq_getElem hi]
  exact List.getElem_mem hi

theorem mem_survivors_pruneProbs {k : ℕ} {p : List ℚ} {i : ℕ} (hi : i < p.length)
    (hkept : isKept k p i = true) : getP p i ∈ survivors (pruneProbs k p) := by
  unfold survivors pruneProbs
  rw [List.reduceOption_mem_iff]
  refine List.mem_map.mpr ⟨i, List.mem_range.mpr hi, ?_⟩
  simp [hkept]

theorem mem_of_mem_survivors {k : ℕ} {p : List ℚ} {v : ℚ}
    (hv : v ∈ survivors (pruneProbs k p)) : v ∈ p := by
  unfold survivors pruneProbs at hv
  rw [List.reduceOption_mem_iff] at hv
  rcases List.mem_map.mp hv with ⟨i, hi, heq⟩
  have hi' := List.mem_range.mp hi
  by_cases h : isKept k p i = true
  · rw [if_pos h] at heq
    exact (Option.some_inj.mp heq) ▸ getP_mem hi'
  · rw [if_neg h] at heq
    exact absurd heq (by simp)

theorem sum_nonpos_of_all_nonpos : ∀ l : List ℚ, (∀ v ∈ l, v ≤ 0) → l.sum ≤ 0 := by
  intro l
  induction l with
  | nil => intro _; simp
  | cons a t ih =>
    intro h
    have ha := h a (List.mem_cons_self a t)
    have ht := ih (fun v hv => h v (List.mem_cons_of_mem a hv))
    simp only [List.sum_cons]
    linarith

theorem exists_pos_of_sum_eq_one {p : List ℚ} (h : p.sum = 1) : ∃ v ∈ p, 0 < v := by
  by_contra hc
  push_neg at hc
  have := sum_nonpos_of_all_nonpos p hc
  rw [h] at this
  norm_num at this

theorem getP_eq_getElem {p : List ℚ} {i : ℕ} (hi : i < p.length) : getP p i = p[i] := by
  unfold getP
  rw [List.getElem?_eq_getElem hi]
  rfl

/-- C3 (amended): for every hybrid Bayes net whose discrete product tree is
a genuine distribution and every budget `k` of at least 1, `prune(k)`
returns a net with at most `k` non-null mixture leaves and at most `k`
non-null discrete leaves, some assignment of globally maximal discrete
probability is kept, and the surviving discrete probabilities sum to 1
after renormalization. -/
theorem hybridBayesNet_prune_spec (net : HybridBayesNet) (k : ℕ) (hk : 1 ≤ k)
    (hne : net.discreteProbs ≠ [])
    (hnn : ∀ v ∈ net.discreteProbs, 0 ≤ v)
    (hsum : net.discreteProbs.sum = 1) :
    nonNullCount (net.prune k).mixtureLeaves ≤ k ∧
    nonNullCount (net.prune k).discreteProbs ≤ k ∧
    (∃ i, i < net.discreteProbs.length ∧ isKept k net.discreteProbs i = true ∧
      ∀ j, j < net.discreteProbs.length →
        getP net.discreteProbs j ≤ getP net.discreteProbs i) ∧
    (survivors (net.prune k).discreteProbs).sum = 1 := by
  obtain ⟨i0, hi0, hkept, hmax⟩ := exists_max_kept k hk net.discreteProbs hne
  have hcount1 : nonNullCount (net.prune k).mixtureLeaves ≤ k := by
    show nonNullCount ((List.range net.discreteProbs.length).map
      (fun i => if isKept k net.discreteProbs i
                then some (net.mixtureLeaves.getD i 0) else none)) ≤ k
    rw [nonNullCount_map_ite]
    exact length_filter_isKept_le k net.discreteProbs
  have hcount2 : nonNullCount (net.prune k).discreteProbs ≤ k := by
    show nonNullCount (renormalize (pruneProbs k net.discreteProbs)) ≤ k
    rw [nonNullCount_renormalize]
    show nonNullCount ((List.range net.discreteProbs.length).map
      (fun i => if isKept k net.discreteProbs i
                then some (getP net.discreteProbs i) else none)) ≤ k
    rw [nonNullCount_map_ite]
    exact length_filter_isKept_le k net.discreteProbs
  have hTpos : 0 < (survivors (pruneProbs k net.discreteProbs)).sum := by
    obtain ⟨v, hv, hvpos⟩ := exists_pos_of_sum_eq_one hsum
    rcases List.mem_iff_getElem.mp hv with ⟨iv, hiv, heqv⟩
    have hvle : v ≤ getP net.discreteProbs i0 := by
      have := hmax iv hiv
      rwa [getP_eq_getElem hiv, heqv] at this
    have hle : getP net.discreteProbs i0 ≤ (survivors (pruneProbs k net.discreteProbs)).sum :=
      List.single_le_sum (fun x hx => hnn x (mem_of_mem_survivors hx)) _
        (mem_survivors_pruneProbs hi0 hkept)
    linarith
  refine ⟨hcount1, hcount2, ⟨i0, hi0, hkept, hmax⟩, ?_⟩
  show (survivors (renormalize (pruneProbs k net.discreteProbs))).sum = 1
  rw [survivors_renormalize, sum_map_div, div_self (ne_of_gt hTpos)]

/-- C3 counterexample to the claim as stated, "for every budget k": with
budget 0 every leaf is discarded, so the assignment of highest probability
mass is not preserved and the surviving discrete probabilities sum to 0,
not 1. -/
theorem hybridBayesNet_prune_budget_zero_cex :
    ((HybridBayesNet.mk [(1 : ℚ)/2, 1/2] [6, 7]).prune 0).mixtureLeaves = [none, none] ∧
    ((HybridBayesNet.mk [(1 : ℚ)/2, 1/2] [6, 7]).prune 0).discreteProbs = [none, none] ∧
    (survivors ((HybridBayesNet.mk [(1 : ℚ)/2, 1/2] [6, 7]).prune 0).discreteProbs).sum = 0 ∧
    (0 : ℚ) ≠ 1 := by
  refine ⟨rfl, rfl, rfl, by norm_num⟩

/-- C3 witness: the amended pruning properties at a concrete two-leaf net
with budget 1. -/
theorem hybridBayesNet_prune_spec_w :
    nonNullCount ((HybridBayesNet.mk [(1 : ℚ)/2, 1/2] [6, 7]).prune 1).mixtureLeaves ≤ 1 ∧
    nonNullCount ((HybridBayesNet.mk [(1 : ℚ)/2, 1/2] [6, 7]).prune 1).discreteProbs ≤ 1 ∧
    (∃ i, i < ([(1 : ℚ)/2, 1/2] : List ℚ).length ∧ isKept 1 [(1 : ℚ)/2, 1/2] i = true ∧
      ∀ j, j < ([(1 : ℚ)/2, 1/2] : List ℚ).length →
        getP [(1 : ℚ)/2, 1/2] j ≤ getP [(1 : ℚ)/2, 1/2] i) ∧
    (survivors ((HybridBayesNet.mk [(1 : ℚ)/2, 1/2] [6, 7]).prune 1).discreteProbs).sum = 1 :=
  hybridBayesNet_prune_spec (HybridBayesNet.mk [(1 : ℚ)/2, 1/2] [6, 7]) 1
    (by decide) (by decide) (by norm_num [List.forall_mem_cons])
    (by norm_num [List.sum_cons, List.sum_nil])

/-- Modelled from the spec: the body of `HybridBayesNet::prune` is not under
src/ (the header only declares it); per the design document, prune "does not
mutate conditionals in place but returns/produces a new net".  The member
call is therefore modelled state-passing style: it yields the state of the
receiving net after the call together with the returned pruned net. -/
def pruneCall (net : HybridBayesNet) (k : ℕ) : HybridBayesNet × PrunedHybridBayesNet :=
  (net, net.prune k)

/-- C4: calling prune leaves the receiving net (and hence every conditional
it owns) unchanged, and the result is the new pruned net built by the pure
pruning function. -/
theorem pruneCall_frame (net : HybridBayesNet) (k : ℕ) :
    (pruneCall net k).1 = net ∧ (pruneCall net k).2 = net.prune k := ⟨rfl, rfl⟩

/-! Decision trees and mixture sums.  The bodies of the `DecisionTree`
combination and of `GaussianMixtureFactor::operator+` are not under src/
(only the unit test exercising them is), so they are modelled from the
design document: a decision tree branches on a discrete key with one
subtree per value below the cardinality; `combine` of two trees produces a
tree over the union of both key sets whose leaf at a full assignment is
`op` of the two leaves looked up in each operand, each operand reading only
the keys it branches on (spec 4.1); the sum of two mixtures is `combine`
with leafwise concatenation of the component factor lists (spec 4.2). -/

/-- A decision tree over discrete keys: every internal node branches on one
key of some cardinality, every leaf holds a value.  Component factors are
opaque identifiers, so mixture leaves are lists of naturals. -/
inductive DecisionTree (V : Type) : Type where
  | leaf (v : V)
  | choice (key card : ℕ) (branch : Fin card → DecisionTree V)

/-- Point lookup by assignment: walk from the root, branching on each key
the tree uses; fails (MissingKey) when the assignment's value for a key is
outside the branching cardinality. -/
def valueAt {V : Type} : DecisionTree V → (ℕ → ℕ) → Option V
  | DecisionTree.leaf v, _ => some v
  | DecisionTree.choice k c br, a =>
      if h : a k < c then valueAt (br ⟨a k, h⟩) a else none

/-- The tree branches only on keys in `S`. -/
def UsesOnly {V : Type} (S : List ℕ) : DecisionTree V → Prop
  | DecisionTree.leaf _ => True
  | DecisionTree.choice k _ br => k ∈ S ∧ ∀ i, UsesOnly S (br i)

instance instDecidableUsesOnly {V : Type} (S : List ℕ) :
    (t : DecisionTree V) → Decidable (UsesOnly S t)
  | DecisionTree.leaf _ => Decidable.isTrue trivial
  | DecisionTree.choice k _c br =>
      haveI : ∀ i, Decidable (UsesOnly S (br i)) :=
        fun i => instDecidableUsesOnly S (br i)
      (inferInstance : Decidable (k ∈ S ∧ ∀ i, UsesOnly S (br i)))

/-- Point update of an assignment. -/
def updateA (a : ℕ → ℕ) (k v : ℕ) : ℕ → ℕ := fun j => if j = k then v else a j

/-- Identifiers of a list of discrete keys. -/
def keyIds (ks : List DiscreteKey) : List ℕ := ks.map Prod.fst

/-- Build the full tree over `ks` whose leaf at each assignment is `f` of
the accumulated assignment (starting from `a`). -/
def expand {V : Type} (f : (ℕ → ℕ) → V) : List DiscreteKey → (ℕ → ℕ) → DecisionTree V
  | [], a => DecisionTree.leaf (f a)
  | (k, c) :: rest, a =>
      DecisionTree.choice k c (fun v => expand f rest (updateA a k v.val))

/-- Overwrite `a0` on the identifiers of `ks` with the values of `b`. -/
def overwrite (a0 : ℕ → ℕ) (ks : List DiscreteKey) (b : ℕ → ℕ) : ℕ → ℕ :=
  fun j => if j ∈ keyIds ks then b j else a0 j

/-- Union of two discrete key lists in order of first appearance. -/
def keyUnion (ks1 ks2 : List DiscreteKey) : List DiscreteKey :=
  ks1 ++ ks2.filter (fun p => decide (p.1 ∉ keyIds ks1))

/-- Modelled from the spec: `combine(otherTree, op)` (spec 4.1) produces a
tree over the union of both trees' keys whose leaf at a full assignment is
`op` of the leaves looked up in each operand tree using the portion of the
assignment each needs. -/
def combine {V : Type} (op : V → V → V) (d : V) (ks1 ks2 : List DiscreteKey)
    (t1 t2 : DecisionTree V) : DecisionTree V :=
  expand (fun a => op ((valueAt t1 a).getD d) ((valueAt t2 a).getD d))
    (keyUnion ks1 ks2) (fun _ => 0)

/-- A decision tree of factor-graph leaves (each leaf a list of component
factor identifiers) together with the discrete keys it is defined over, as
accumulated by summing mixture factors. -/
structure GaussianFactorGraphTree where
  keys : List DiscreteKey
  tree : DecisionTree (List ℕ)

/-- Modelled from the spec: the sum of two mixtures over possibly different
discrete key sets is `combine` with leafwise factor-list concatenation
(spec 4.2). -/
def GaussianFactorGraphTree.add (A B : GaussianFactorGraphTree) :
    GaussianFactorGraphTree :=
  { keys := keyUnion A.keys B.keys
    tree := combine (fun x y => x ++ y) [] A.keys B.keys A.tree B.tree }

theorem valueAt_expand {V : Type} (f : (ℕ → ℕ) → V) :
    ∀ (ks : List DiscreteKey) (a0 b : ℕ → ℕ), (∀ p ∈ ks, b p.1 < p.2) →
      valueAt (expand f ks a0) b = some (f (overwrite a0 ks b)) := by
  intro ks
  induction ks with
  | nil =>
    intro a0 b _
    simp only [expand, valueAt, Option.some.injEq]
    apply congrArg
    funext j
    simp [overwrite, keyIds]
  | cons p rest ih =>
    obtain ⟨k, c⟩ := p
    intro a0 b h
    have hk : b k < c := h (k, c) (List.mem_cons_self _ _)
    simp only [expand, valueAt]
    rw [dif_pos hk, ih (updateA a0 k (b k)) b (fun q hq => h q (List.mem_cons_of_mem _ hq))]
    apply congrArg
    apply congrArg
    funext j
    simp only [overwrite, keyIds, List.map_cons, List.mem_cons, updateA]
    by_cases h1 : j = k
    · subst h1
      by_cases h2 : j ∈ List.map Prod.fst rest <;> simp [h2]
    · by_cases h2 : j ∈ List.map Prod.fst rest <;> simp [h1, h2]

theorem valueAt_congr {V : Type} :
    ∀ (t : DecisionTree V) (S : List ℕ), UsesOnly S t →
      ∀ a b : ℕ → ℕ, (∀ k ∈ S, a k = b k) → valueAt t a = valueAt t b := by
  intro t
  induction t with
  | leaf v => intro S _ a b _; rfl
  | choice k c br ih =>
    intro S hS a b hab
    obtain ⟨hkS, hbr⟩ := hS
    simp only [valueAt]
    rw [hab k hkS]
    by_cases h : b k < c
    · rw [dif_pos h, dif_pos h]
      exact ih ⟨b k, h⟩ S (hbr _) a b hab
    · rw [dif_neg h, dif_neg h]

theorem mem_keyIds_keyUnion_left {ks1 ks2 : List DiscreteKey} {k : ℕ}
    (hk : k ∈ keyIds ks1) : k ∈ keyIds (keyUnion ks1 ks2) := by
  unfold keyIds keyUnion
  rw [List.map_append]
  exact List.mem_append_left _ hk

theorem mem_keyIds_keyUnion_right {ks1 ks2 : List DiscreteKey} {k : ℕ}
    (hk : k ∈ keyIds ks2) : k ∈ keyIds (keyUnion ks1 ks2) := by
  by_cases h1 : k ∈ keyIds ks1
  · exact mem_keyIds_keyUnion_left h1
  · unfold keyIds keyUnion
    rw [List.map_append]
    apply List.mem_append_right
    rcases List.mem_map.mp hk with ⟨p, hp, rfl⟩
    exact List.mem_map.mpr
      ⟨p, List.mem_filter.mpr ⟨hp, decide_eq_true (by simpa [keyIds] using h1)⟩, rfl⟩

/-- C5: the sum of two mixture factors over possibly different discrete key
sets is a tree over the union of both key sets, and at every reachable
discrete assignment its leaf is the concatenation (multiset union) of the
two operands' component factor lists at that assignment, each operand
looked up using only the keys it branches on. -/
theorem mixture_sum_leafwise_union (A B : GaussianFactorGraphTree) (b : ℕ → ℕ)
    (la lb : List ℕ)
    (hA : UsesOnly (keyIds A.keys) A.tree) (hB : UsesOnly (keyIds B.keys) B.tree)
    (hrange : ∀ p ∈ keyUnion A.keys B.keys, b p.1 < p.2)
    (hva : valueAt A.tree b = some la) (hvb : valueAt B.tree b = some lb) :
    (A.add B).keys = keyUnion A.keys B.keys ∧
    valueAt (A.add B).tree b = some (la ++ lb) := by
  refine ⟨rfl, ?_⟩
  show valueAt (combine (fun x y => x ++ y) [] A.keys B.keys A.tree B.tree) b = _
  unfold combine
  rw [valueAt_expand _ _ _ _ hrange]
  have howa : valueAt A.tree (overwrite (fun _ => 0) (keyUnion A.keys B.keys) b) =
      valueAt A.tree b := by
    apply valueAt_congr A.tree _ hA
    intro k hk
    have hm : k ∈ keyIds (keyUnion A.keys B.keys) :=
      @mem_keyIds_keyUnion_left A.keys B.keys k hk
    simp [overwrite, hm]
  have howb : valueAt B.tree (overwrite (fun _ => 0) (keyUnion A.keys B.keys) b) =
      valueAt B.tree b := by
    apply valueAt_congr B.tree _ hB
    intro k hk
    have hm : k ∈ keyIds (keyUnion A.keys B.keys) :=
      @mem_keyIds_keyUnion_right A.keys B.keys k hk
    simp [overwrite, hm]
  rw [howa, howb, hva, hvb]
  rfl

/-- Mixture factor A of the Sum unit test: key m1 = (1, 2), component
factors f10 = 10 and f11 = 11. -/
def sumTestA : GaussianFactorGraphTree :=
  { keys := [(1, 2)]
    tree := DecisionTree.choice 1 2
      (fun v => if v.val = 0 then DecisionTree.leaf [10] else DecisionTree.leaf [11]) }

/-- Mixture factor B of the Sum unit test: key m2 = (2, 3), component
factors f20 = 20, f21 = 21, f22 = 22. -/
def sumTestB : GaussianFactorGraphTree :=
  { keys := [(2, 3)]
    tree := DecisionTree.choice 2 3
      (fun v => if v.val = 0 then DecisionTree.leaf [20]
                else if v.val = 1 then DecisionTree.leaf [21]
                else DecisionTree.leaf [22]) }

/-- The mode of the Sum unit test: m1 = 1, m2 = 2. -/
def sumTestMode : ℕ → ℕ := fun k => if k = 1 then 1 else if k = 2 then 2 else 0

/-- C5 witness: at the unit test's mode {m1 = 1, m2 = 2} the sum of the two
mixtures holds exactly the components f11 and f22. -/
theorem mixture_sum_leafwise_union_w :
    (sumTestA.add sumTestB).keys = keyUnion sumTestA.keys sumTestB.keys ∧
    valueAt (sumTestA.add sumTestB).tree sumTestMode = some [11, 22] :=
  mixture_sum_leafwise_union sumTestA sumTestB sumTestMode [11] [22]
    (by decide) (by decide) (by decide) (by decide) (by decide)

/-! Mixture factor errors.  The bodies of `JacobianFactor::error` and
`GaussianMixtureFactor::errorTree` / `::error` are not under src/ (only the
unit test is), so they are modelled from the design document with exact
rational arithmetic: a unit-noise Jacobian factor has error half the
squared norm of its residual `Ax - b`; `errorTree` applies the per-leaf
error (plus the optional log-normalizer of the leaf) leafwise over all
discrete assignments; `error` at hybrid values selects the leaf at the
discrete assignment first (spec 4.2). -/

/-- Dot product of two rational vectors. -/
def dotProd (r x : List ℚ) : ℚ := (List.zipWith (fun a b => a * b) r x).sum

/-- Matrix (list of rows) times vector. -/
def matVec (A : List (List ℚ)) (x : List ℚ) : List ℚ := A.map (fun r => dotProd r x)

/-- Componentwise vector sum. -/
def vecAdd (u v : List ℚ) : List ℚ := List.zipWith (fun a b => a + b) u v

/-- Componentwise vector difference. -/
def vecSub (u v : List ℚ) : List ℚ := List.zipWith (fun a b => a - b) u v

/-- Squared euclidean norm. -/
def sqNorm (v : List ℚ) : ℚ := (v.map (fun a => a * a)).sum

/-- A Jacobian factor: one coefficient block per continuous key, and the
right-hand side, with an implicit unit noise model. -/
structure JacobianFactor where
  terms : List (ℕ × List (List ℚ))
  rhs : List ℚ

/-- Continuous values: a vector per continuous key. -/
abbrev VectorValues := ℕ → List ℚ

/-- Modelled from the spec: the error of a unit-noise Jacobian factor at
continuous values, half the squared norm of the residual. -/
def JacobianFactor.error (f : JacobianFactor) (vv : VectorValues) : ℚ :=
  sqNorm (vecSub
    (f.terms.foldr (fun t acc => vecAdd (matVec t.2 (vv t.1)) acc)
      (List.replicate f.rhs.length 0))
    f.rhs) / 2

/-- Apply a function to every leaf of a decision tree, keeping its shape. -/
def treeMap {V W : Type} (g : V → W) : DecisionTree V → DecisionTree W
  | DecisionTree.leaf v => DecisionTree.leaf (g v)
  | DecisionTree.choice k c br => DecisionTree.choice k c (fun i => treeMap g (br i))

/-- Number of leaves of a decision tree. -/
def countLeaves {V : Type} : DecisionTree V → ℕ
  | DecisionTree.leaf _ => 1
  | DecisionTree.choice _ _ br => (Finset.univ.sum fun i => countLeaves (br i))

/-- A Gaussian mixture factor: fixed continuous keys, discrete keys, and a
decision tree whose leaves are component Jacobian factors paired with their
log-normalizer scalar. -/
structure GaussianMixtureFactor where
  continuousKeys : List ℕ
  discreteKeys : List DiscreteKey
  factors : DecisionTree (JacobianFactor × ℚ)

/-- Modelled from the spec: `errorTree(continuousValues)` applies the
per-leaf error (continuous-factor error plus the leaf log-normalizer)
leafwise over all discrete assignments. -/
def GaussianMixtureFactor.errorTree (F : GaussianMixtureFactor)
    (cont : VectorValues) : DecisionTree ℚ :=
  treeMap (fun p => p.1.error cont + p.2) F.factors

/-- Modelled from the spec: `error(HybridValues)` selects the leaf at the
discrete assignment, then computes the continuous-factor error there plus
the leaf log-normalizer. -/
def GaussianMixtureFactor.error (F : GaussianMixtureFactor) (cont : VectorValues)
    (disc : ℕ → ℕ) : Option ℚ :=
  (valueAt F.factors disc).map (fun p => p.1.error cont + p.2)

/-- Component f0 of the Error unit test: identity blocks on x1 and x2,
zero right-hand side. -/
def errorTestF0 : JacobianFactor :=
  { terms := [(1, [[1, 0], [0, 1]]), (2, [[1, 0], [0, 1]])], rhs := [0, 0] }

/-- Component f1 of the Error unit test: identity block on x1, twice the
identity on x2, zero right-hand side. -/
def errorTestF1 : JacobianFactor :=
  { terms := [(1, [[1, 0], [0, 1]]), (2, [[2, 0], [0, 2]])], rhs := [0, 0] }

/-- The two-component mixture of the Error unit test over the binary mode
m1 (key 5), with no log-normalizers. -/
def errorTestMixture : GaussianMixtureFactor :=
  { continuousKeys := [1, 2]
    discreteKeys := [(5, 2)]
    factors := DecisionTree.choice 5 2
      (fun v => if v.val = 0 then DecisionTree.leaf (errorTestF0, 0)
                else DecisionTree.leaf (errorTestF1, 0)) }

/-- Continuous values of the Error unit test: x1 = (0, 0), x2 = (1, 1). -/
def errorTestCont : VectorValues :=
  fun k => if k = 1 then [0, 0] else if k = 2 then [1, 1] else []

/-- C6: for the two-component mixture of the Error test, whose components
have residuals of norm 1 and 2 at the given continuous values, `errorTree`
returns a tree with exactly 2 leaves whose values are the direct per-leaf
errors 1 and 4, and `error` at the hybrid values selecting component 1
is 4. -/
theorem errorTest_error0 : errorTestF0.error errorTestCont = 1 := by
  norm_num [JacobianFactor.error, errorTestF0, errorTestCont, sqNorm, vecSub,
    vecAdd, matVec, dotProd, List.zipWith_cons_cons, List.zipWith_nil_left,
    List.zipWith_nil_right, List.replicate_succ, List.replicate_zero]

theorem errorTest_error1 : errorTestF1.error errorTestCont = 4 := by
  norm_num [JacobianFactor.error, errorTestF1, errorTestCont, sqNorm, vecSub,
    vecAdd, matVec, dotProd, List.zipWith_cons_cons, List.zipWith_nil_left,
    List.zipWith_nil_right, List.replicate_succ, List.replicate_zero]

/-- C6: for the two-component mixture of the Error test, whose components
have residuals of norm 1 and 2 at the given continuous values, `errorTree`
returns a tree with exactly 2 leaves whose values are the direct per-leaf
errors 1 and 4, and `error` at the hybrid values selecting component 1
is 4. -/
theorem mixtureFactor_errorTree_regression :
    countLeaves (errorTestMixture.errorTree errorTestCont) = 2 ∧
    valueAt (errorTestMixture.errorTree errorTestCont) (fun _ => 0) = some 1 ∧
    valueAt (errorTestMixture.errorTree errorTestCont) (fun _ => 1) = some 4 ∧
    errorTestMixture.error errorTestCont (fun _ => 1) = some 4 := by
  refine ⟨rfl, ?_, ?_, ?_⟩
  · show some (errorTestF0.error errorTestCont + 0) = some 1
    rw [errorTest_error0]
    norm_num
  · show some (errorTestF1.error errorTestCont + 0) = some 4
    rw [errorTest_error1]
    norm_num
  · show some (errorTestF1.error errorTestCont + 0) = some 4
    rw [errorTest_error1]
    norm_num

/-! The GaussianMixtureModel2 regression.  The bodies of `toFactorGraph`
and of the external sequential elimination engine are not under src/ (the
header only declares `toFactorGraph`; elimination is an external
collaborator per spec 1/2).  Per spec 4.4, converting the two-conditional
net P(m) P(z|m) at a fixed measurement z produces one likelihood factor per
mode with its log-normalizer preserved "so posterior mode comparison
remains calibrated", and eliminating yields the discrete posterior, whose
mass at mode m is therefore proportional to prior(m) times the Gaussian
density of z under mode m. -/

/-- Density at `z` of a Gaussian with mean `μ` and standard deviation `σ`. -/
noncomputable def gaussianDensity (μ σ z : ℝ) : ℝ :=
  1 / (σ * Real.sqrt (2 * Real.pi)) * Real.exp (-(z - μ) ^ 2 / (2 * σ ^ 2))

/-- Modelled from the spec: unnormalized posterior mass of a mode after
`toFactorGraph` at measurement `z` followed by external sequential
elimination: the mode prior times the Gaussian density of the measurement
under that mode. -/
noncomputable def posteriorWeight (prior μ σ z : ℝ) : ℝ := prior * gaussianDensity μ σ z

/-- Posterior probability of mode 0 in the GaussianMixtureModel2 scenario:
priors 0.5/0.5, means 1 and 3, sigmas 8 and 4, measurement z = 2. -/
noncomputable def gmm2Post0 : ℝ :=
  posteriorWeight (1/2) 1 8 2 /
    (posteriorWeight (1/2) 1 8 2 + posteriorWeight (1/2) 3 4 2)

/-- Posterior probability of mode 1 in the GaussianMixtureModel2 scenario. -/
noncomputable def gmm2Post1 : ℝ :=
  posteriorWeight (1/2) 3 4 2 /
    (posteriorWeight (1/2) 1 8 2 + posteriorWeight (1/2) 3 4 2)

theorem gmm2_exp_bounds :
    (4097143/4194304 : ℝ) - 405/25769803776 ≤ Real.exp (-3/128 : ℝ) ∧
    Real.exp (-3/128 : ℝ) ≤ (4097143/4194304 : ℝ) + 405/25769803776 := by
  have habs : |(-3/128 : ℝ)| ≤ 1 := by
    rw [abs_le]
    norm_num
  have hb := @Real.exp_bound (-3/128 : ℝ) habs 4 (by norm_num)
  have hsum : ∑ i ∈ Finset.range 4, ((-3/128 : ℝ)) ^ i / (Nat.factorial i) =
      4097143/4194304 := by
    norm_num [Finset.sum_range_succ, Nat.factorial]
  have habs4 : |(-3/128 : ℝ)| = 3/128 := by
    rw [abs_of_nonpos (by norm_num)]
    norm_num
  rw [hsum, habs4] at hb
  have hb2 : |Real.exp (-3/128 : ℝ) - 4097143/4194304| ≤ 405/25769803776 := by
    refine le_trans hb (le_of_eq ?_)
    push_cast
    norm_num [Nat.factorial]
  rw [abs_sub_le_iff] at hb2
  constructor <;> linarith [hb2.1, hb2.2]

theorem gmm2Post1_eq :
    gmm2Post1 = 2 * Real.exp (-3/128 : ℝ) / (1 + 2 * Real.exp (-3/128 : ℝ)) := by
  have hs : 0 < Real.sqrt (2 * Real.pi) := Real.sqrt_pos.mpr (by positivity)
  have hε : 0 < Real.exp (-1/128 : ℝ) := Real.exp_pos _
  have hE : 0 < Real.exp (-3/128 : ℝ) := Real.exp_pos _
  unfold gmm2Post1 posteriorWeight gaussianDensity
  have e1 : Real.exp (-((2:ℝ) - 1) ^ 2 / (2 * 8 ^ 2)) = Real.exp (-1/128 : ℝ) := by
    norm_num
  have e2 : Real.exp (-((2:ℝ) - 3) ^ 2 / (2 * 4 ^ 2)) =
      Real.exp (-3/128 : ℝ) * Real.exp (-1/128 : ℝ) := by
    rw [← Real.exp_add]
    norm_num
  rw [e1, e2]
  rw [div_eq_div_iff (by positivity) (by positivity)]
  field_simp
  ring

theorem gmm2_post_sum_one : gmm2Post0 + gmm2Post1 = 1 := by
  have hs : 0 < Real.sqrt (2 * Real.pi) := Real.sqrt_pos.mpr (by positivity)
  have hpos : 0 < posteriorWeight (1/2) 1 8 2 + posteriorWeight (1/2) 3 4 2 := by
    unfold posteriorWeight gaussianDensity
    positivity
  unfold gmm2Post0 gmm2Post1
  rw [div_add_div_same, div_self (ne_of_gt hpos)]

/-- C7: in the GaussianMixtureModel2 scenario (priors 0.5/0.5, means 1 and
3, component sigmas 8 and 4, measurement z = 2), converting to a factor
graph and eliminating yields the discrete posterior 0.338561851224 /
0.661438148776 to within 1e-6, and the tighter-covariance mode is
favored. -/
theorem gmm2_posterior_regression :
    |gmm2Post0 - 338561851224/1000000000000| < 1/1000000 ∧
    |gmm2Post1 - 661438148776/1000000000000| < 1/1000000 ∧
    gmm2Post0 < gmm2Post1 := by
  obtain ⟨hlo, hhi⟩ := gmm2_exp_bounds
  have hE : 0 < Real.exp (-3/128 : ℝ) := Real.exp_pos _
  have hD : 0 < 1 + 2 * Real.exp (-3/128 : ℝ) := by linarith
  have hup : gmm2Post1 < 661438148776/1000000000000 + 1/1000000 := by
    rw [gmm2Post1_eq, div_lt_iff₀ hD]
    nlinarith [hlo, hhi]
  have hdn : 661438148776/1000000000000 - (1/1000000 : ℝ) < gmm2Post1 := by
    rw [gmm2Post1_eq, lt_div_iff₀ hD]
    nlinarith [hlo, hhi]
  have h1 : |gmm2Post1 - 661438148776/1000000000000| < 1/1000000 := by
    rw [abs_lt]
    constructor <;> linarith
  have hsum01 := gmm2_post_sum_one
  have h0eq : gmm2Post0 - 338561851224/1000000000000 =
      -(gmm2Post1 - 661438148776/1000000000000) := by linarith
  have h0 : |gmm2Post0 - 338561851224/1000000000000| < 1/1000000 := by
    rw [h0eq, abs_neg]
    exact h1
  refine ⟨h0, h1, ?_⟩
  have : gmm2Post0 = 1 - gmm2Post1 := by linarith
  rw [this]
  linarith

end GtsamHybrid
